import Mathlib

/-!
# Verification of the deadlock-free dining-philosophers core (`dinPhil`)

Shallow embedding of the active implementation in `dinPhil.go` (quoted in
full in `src/dinPhil/README.md`): `n = 5` philosopher goroutines, forks as
buffered channels of capacity 1 (a token means the fork is available), and
a "room" channel of capacity `n-1` acting as an admission semaphore.  Each
philosopher repeatedly thinks, enters the room, picks up its two forks in
ascending index order, eats, puts the forks back (high then low), and
leaves the room.

The Go loop body is cut at every channel operation; the resulting program
points are the `Phase` type.  Channel contents are token counts; a
blocking operation is a step guarded by the channel's send/receive
enabledness rule (send enabled iff the buffer is not full, receive
enabled iff the buffer is nonempty).  Every `fmt.Println` observation and
every channel interaction of a philosopher is recorded in an event trace
so that ordering properties can be stated about observable behaviour.
-/

namespace DinPhil

/-- `left := id` in `philosopher`. -/
def leftFork (id _n : Nat) : Nat := id

/-- `right := (id + 1) % len(forks)` in `philosopher`. -/
def rightFork (id n : Nat) : Nat := (id + 1) % n

/-- The resource-ordering computation in `philosopher`:
`low, high := left, right; if high < low { low, high = high, low }`. -/
def lowHigh (id n : Nat) : Nat × Nat :=
  let low := leftFork id n
  let high := rightFork id n
  if high < low then (high, low) else (low, high)

/-- The fork index the philosopher picks up first. -/
def lowOf (id n : Nat) : Nat := (lowHigh id n).1

/-- The fork index the philosopher picks up second. -/
def highOf (id n : Nat) : Nat := (lowHigh id n).2

theorem lowOf_lt (id n : Nat) (hid : id < n) : lowOf id n < n := by
  have hpos : 0 < n := Nat.lt_of_le_of_lt (Nat.zero_le id) hid
  by_cases h : rightFork id n < leftFork id n
  · simp only [lowOf, lowHigh, h, if_pos]
    exact Nat.mod_lt _ hpos
  · simp only [lowOf, lowHigh, h, if_neg, not_false_iff]
    exact hid

theorem highOf_lt (id n : Nat) (hid : id < n) : highOf id n < n := by
  have hpos : 0 < n := Nat.lt_of_le_of_lt (Nat.zero_le id) hid
  by_cases h : rightFork id n < leftFork id n
  · simp only [highOf, lowHigh, h, if_pos]
    exact hid
  · simp only [highOf, lowHigh, h, if_neg, not_false_iff]
    exact Nat.mod_lt _ hpos

/-- `lowOf` is the minimum of the two adjacent fork indices. -/
theorem lowOf_eq_min (id n : Nat) :
    lowOf id n = min (leftFork id n) (rightFork id n) := by
  by_cases h : rightFork id n < leftFork id n
  · simp only [lowOf, lowHigh, h, if_pos]
    exact (Nat.min_eq_right (Nat.le_of_lt h)).symm
  · simp only [lowOf, lowHigh, h, if_neg, not_false_iff]
    exact (Nat.min_eq_left (Nat.le_of_not_lt h)).symm

/-- `highOf` is the maximum of the two adjacent fork indices. -/
theorem highOf_eq_max (id n : Nat) :
    highOf id n = max (leftFork id n) (rightFork id n) := by
  by_cases h : rightFork id n < leftFork id n
  · simp only [highOf, lowHigh, h, if_pos]
    exact (Nat.max_eq_left (Nat.le_of_lt h)).symm
  · simp only [highOf, lowHigh, h, if_neg, not_false_iff]
    exact (Nat.max_eq_right (Nat.le_of_not_lt h)).symm

/-- Program points of the `philosopher` loop, one per segment between
channel operations:

* `thinking`   — about to run `think(id)`;
* `awaitRoom`  — about to send on `room` (enter the dining room);
* `awaitLow`   — about to receive from `forks[low]`;
* `awaitHigh`  — about to receive from `forks[high]`;
* `eating`     — about to run `eat(id)`;
* `putHigh`    — about to send on `forks[high]`;
* `putLow`     — about to send on `forks[low]`;
* `leaveRoom`  — about to receive from `room`. -/
inductive Phase where
  | thinking | awaitRoom | awaitLow | awaitHigh
  | eating | putHigh | putLow | leaveRoom
  deriving DecidableEq, Repr

/-- Observable events of one philosopher: the two `fmt.Println`
observations and the four channel interactions, tagged with the
philosopher id (and the fork index where relevant). -/
inductive Ev where
  | think (id : Nat)
  | enter (id : Nat)
  | acq (id fork : Nat)
  | eat (id : Nat)
  | rel (id fork : Nat)
  | leave (id : Nat)
  deriving DecidableEq, Repr

/-- The id carried by an event. -/
def Ev.evId : Ev → Nat
  | .think i => i | .enter i => i | .acq i _ => i
  | .eat i => i | .rel i _ => i | .leave i => i

/-- Global state of the system of `n` philosophers: each philosopher's
program point, the token count of each fork channel (capacity 1), the
token count of the room channel (capacity `n-1`), and the global event
trace (oldest first). -/
structure SysState (n : Nat) where
  phase : Fin n → Phase
  fork : Fin n → Nat
  room : Nat
  trace : List Ev

/-- Room capacity, as set up in `main`: `room := make(chan struct{}, n-1)`. -/
def roomCapacity (n : Nat) : Nat := n - 1

/-- The philosopher count in `main`: `n := 5`. -/
def mainN : Nat := 5

/-- The initial state built by `main`: every fork channel holds one
token (`forks[i] <- struct{}{}`), the room channel is empty, every
philosopher is at the top of its loop. -/
def initSys (n : Nat) : SysState n :=
  { phase := fun _ => .thinking
    fork := fun _ => 1
    room := 0
    trace := [] }

/-- The fork index `low` of philosopher `i`, as a `Fin n`. -/
def lowF {n : Nat} (i : Fin n) : Fin n := ⟨lowOf i.val n, lowOf_lt i.val n i.isLt⟩

/-- The fork index `high` of philosopher `i`, as a `Fin n`. -/
def highF {n : Nat} (i : Fin n) : Fin n := ⟨highOf i.val n, highOf_lt i.val n i.isLt⟩

/-- Whether philosopher `i`'s next operation is enabled in state `s`:
a channel send is enabled iff the buffer is below capacity, a channel
receive iff the buffer is nonempty; `think`/`eat` never block. -/
def enabled {n : Nat} (s : SysState n) (i : Fin n) : Bool :=
  match s.phase i with
  | .thinking => true
  | .awaitRoom => decide (s.room < roomCapacity n)
  | .awaitLow => decide (0 < s.fork (lowF i))
  | .awaitHigh => decide (0 < s.fork (highF i))
  | .eating => true
  | .putHigh => decide (s.fork (highF i) < 1)
  | .putLow => decide (s.fork (lowF i) < 1)
  | .leaveRoom => decide (0 < s.room)

/-- Effect of philosopher `i` executing its next operation (assumed
enabled): advance its program point, update the affected channel, and
append the corresponding event. -/
def applyStep {n : Nat} (s : SysState n) (i : Fin n) : SysState n :=
  match s.phase i with
  | .thinking =>
      { s with phase := Function.update s.phase i .awaitRoom
               trace := s.trace ++ [.think i.val] }
  | .awaitRoom =>
      { s with phase := Function.update s.phase i .awaitLow
               room := s.room + 1
               trace := s.trace ++ [.enter i.val] }
  | .awaitLow =>
      { s with phase := Function.update s.phase i .awaitHigh
               fork := Function.update s.fork (lowF i) (s.fork (lowF i) - 1)
               trace := s.trace ++ [.acq i.val (lowF i).val] }
  | .awaitHigh =>
      { s with phase := Function.update s.phase i .eating
               fork := Function.update s.fork (highF i) (s.fork (highF i) - 1)
               trace := s.trace ++ [.acq i.val (highF i).val] }
  | .eating =>
      { s with phase := Function.update s.phase i .putHigh
               trace := s.trace ++ [.eat i.val] }
  | .putHigh =>
      { s with phase := Function.update s.phase i .putLow
               fork := Function.update s.fork (highF i) (s.fork (highF i) + 1)
               trace := s.trace ++ [.rel i.val (highF i).val] }
  | .putLow =>
      { s with phase := Function.update s.phase i .leaveRoom
               fork := Function.update s.fork (lowF i) (s.fork (lowF i) + 1)
               trace := s.trace ++ [.rel i.val (lowF i).val] }
  | .leaveRoom =>
      { s with phase := Function.update s.phase i .thinking
               room := s.room - 1
               trace := s.trace ++ [.leave i.val] }

/-- Reachability under arbitrary interleaving: any enabled philosopher
may move. -/
inductive Reachable (n : Nat) : SysState n → Prop where
  | init : Reachable n (initSys n)
  | step {s : SysState n} {i : Fin n} :
      Reachable n s → enabled s i = true → Reachable n (applyStep s i)

/-- Fork-holding as a function of the program point: a philosopher with
acquisition pair `(lo, hi)` holds `lo` from the completed receive on
`forks[low]` until its send on `forks[low]` completes, and holds `hi`
from the completed receive on `forks[high]` until its send on
`forks[high]` completes. -/
def holdsPh {n : Nat} (p : Phase) (lo hi f : Fin n) : Prop :=
  (f = lo ∧ (p = .awaitHigh ∨ p = .eating ∨ p = .putHigh ∨ p = .putLow)) ∨
  (f = hi ∧ (p = .eating ∨ p = .putHigh))

instance {n : Nat} (p : Phase) (lo hi f : Fin n) : Decidable (holdsPh p lo hi f) := by
  unfold holdsPh; infer_instance

/-- Philosopher `i` holds fork `f` in state `s`. -/
def holds {n : Nat} (s : SysState n) (i f : Fin n) : Prop :=
  holdsPh (s.phase i) (lowF i) (highF i) f

instance {n : Nat} (s : SysState n) (i f : Fin n) : Decidable (holds s i f) := by
  unfold holds; infer_instance

/-- Program points strictly inside the dining room: after the send on
`room` completed and before the receive from `room` completed. -/
def inRoom : Phase → Bool
  | .thinking => false
  | .awaitRoom => false
  | _ => true

/-- Number of philosophers inside the room, as a function of the phase
assignment. -/
def insideCountF {n : Nat} (p : Fin n → Phase) : Nat :=
  ∑ i, if inRoom (p i) then 1 else 0

/-- Number of philosophers inside the room in state `s`. -/
def insideCount {n : Nat} (s : SysState n) : Nat := insideCountF s.phase

theorem insideCountF_update {n : Nat} (p : Fin n → Phase) (i : Fin n) (ph : Phase) :
    insideCountF (Function.update p i ph) + (if inRoom (p i) then 1 else 0)
      = insideCountF p + (if inRoom ph then 1 else 0) := by
  have h1 : insideCountF (Function.update p i ph)
      = (if inRoom ph then 1 else 0)
        + ∑ j ∈ Finset.univ.erase i, (if inRoom (p j) then 1 else 0) := by
    unfold insideCountF
    rw [← Finset.add_sum_erase Finset.univ _ (Finset.mem_univ i),
        Function.update_same]
    congr 1
    exact Finset.sum_congr rfl fun j hj => by
      rw [Function.update_noteq (Finset.ne_of_mem_erase hj)]
  have h2 : insideCountF p
      = (if inRoom (p i) then 1 else 0)
        + ∑ j ∈ Finset.univ.erase i, (if inRoom (p j) then 1 else 0) := by
    unfold insideCountF
    rw [← Finset.add_sum_erase Finset.univ _ (Finset.mem_univ i)]
  omega

/-- The per-fork channel invariant: either the fork's availability token
is in the channel and nobody holds the fork, or the channel is empty and
exactly one philosopher holds it. -/
def ForkInv {n : Nat} (s : SysState n) (f : Fin n) : Prop :=
  (s.fork f = 1 ∧ ∀ j, ¬ holds s j f) ∨
  (s.fork f = 0 ∧ ∃ i, holds s i f ∧ ∀ j, holds s j f → j = i)

/-- The global state invariant: every fork channel is consistent with
the holding map, the room channel's token count equals the number of
philosophers inside the room, and that count never exceeds the room
capacity `n - 1`. -/
def Inv {n : Nat} (s : SysState n) : Prop :=
  (∀ f, ForkInv s f) ∧ s.room = insideCount s ∧ s.room ≤ n - 1

theorem inv_init (n : Nat) : Inv (initSys n) := by
  refine ⟨fun f => Or.inl ⟨rfl, fun j => ?_⟩, ?_, Nat.zero_le _⟩
  · simp [holds, holdsPh, initSys]
  · simp [insideCount, insideCountF, initSys, inRoom]

theorem lowOf_lt_highOf (id n : Nat) (hn : 2 ≤ n) (hid : id < n) :
    lowOf id n < highOf id n := by
  rw [lowOf_eq_min, highOf_eq_max]
  refine min_lt_max.mpr ?_
  unfold leftFork rightFork
  rcases Nat.lt_or_ge (id + 1) n with h | h
  · rw [Nat.mod_eq_of_lt h]; omega
  · have hin : id + 1 = n := Nat.le_antisymm hid h
    rw [hin, Nat.mod_self]; omega

theorem lowF_ne_highF {n : Nat} (hn : 2 ≤ n) (i : Fin n) : lowF i ≠ highF i := by
  have h := lowOf_lt_highOf i.val n hn i.isLt
  intro hcontra
  rw [Fin.ext_iff] at hcontra
  simp only [lowF, highF] at hcontra
  omega

theorem forkInv_transfer_at {n : Nat} {s s' : SysState n} (f : Fin n)
    (hfork : s'.fork f = s.fork f)
    (hholds : ∀ j, holds s' j f ↔ holds s j f)
    (h : ForkInv s f) : ForkInv s' f := by
  rcases h with ⟨h1, h2⟩ | ⟨h1, k, hk, hu⟩
  · exact Or.inl ⟨hfork.trans h1, fun j hj => h2 j ((hholds j).mp hj)⟩
  · exact Or.inr ⟨hfork.trans h1, k, (hholds k).mpr hk,
      fun j hj => hu j ((hholds j).mp hj)⟩

theorem holds_phase_update_iff {n : Nat} {s : SysState n} {i : Fin n} (ph : Phase)
    (hsame : ∀ f : Fin n,
      holdsPh ph (lowF i) (highF i) f ↔ holdsPh (s.phase i) (lowF i) (highF i) f)
    (s' : SysState n) (hp : s'.phase = Function.update s.phase i ph) :
    ∀ j f, holds s' j f ↔ holds s j f := by
  intro j f
  unfold holds
  rw [hp]
  rcases eq_or_ne j i with rfl | hne
  · rw [Function.update_same]; exact hsame f
  · rw [Function.update_noteq hne]

/-- One step of any enabled philosopher preserves the global invariant. -/
theorem inv_step {n : Nat} (hn : 2 ≤ n) {s : SysState n} {i : Fin n}
    (h : Inv s) (he : enabled s i = true) : Inv (applyStep s i) := by
  obtain ⟨hF, hR, hC⟩ := h
  unfold insideCount at hR
  cases hph : s.phase i with
  | thinking =>
      simp only [applyStep, hph]
      have hkeep := holds_phase_update_iff (s := s) (i := i) Phase.awaitRoom
        (fun f => by rw [hph]; simp [holdsPh])
        { s with phase := Function.update s.phase i .awaitRoom
                 trace := s.trace ++ [.think i.val] } rfl
      refine ⟨fun f => forkInv_transfer_at (s := s) f rfl (fun j => hkeep j f) (hF f), ?_, hC⟩
      show s.room = insideCountF (Function.update s.phase i .awaitRoom)
      have hcnt := insideCountF_update s.phase i .awaitRoom
      rw [hph] at hcnt
      simp only [inRoom, if_neg, Bool.false_eq_true, not_false_iff] at hcnt
      omega
  | awaitRoom =>
      simp only [enabled, hph, decide_eq_true_eq] at he
      unfold roomCapacity at he
      simp only [applyStep, hph]
      have hkeep := holds_phase_update_iff (s := s) (i := i) Phase.awaitLow
        (fun f => by rw [hph]; simp [holdsPh])
        { s with phase := Function.update s.phase i .awaitLow
                 room := s.room + 1
                 trace := s.trace ++ [.enter i.val] } rfl
      refine ⟨fun f => forkInv_transfer_at (s := s) f rfl (fun j => hkeep j f) (hF f), ?_, ?_⟩
      · show s.room + 1 = insideCountF (Function.update s.phase i .awaitLow)
        have hcnt := insideCountF_update s.phase i .awaitLow
        rw [hph] at hcnt
        simp only [inRoom, if_neg, if_pos, Bool.false_eq_true, not_false_iff] at hcnt
        omega
      · show s.room + 1 ≤ n - 1
        omega
  | awaitLow =>
      simp only [enabled, hph, decide_eq_true_eq] at he
      simp only [applyStep, hph]
      refine ⟨fun f => ?_, ?_, hC⟩
      · rcases eq_or_ne f (lowF i) with rfl | hf
        · rcases hF (lowF i) with ⟨h1, h2⟩ | ⟨h1, _⟩
          · refine Or.inr ⟨?_, i, ?_, ?_⟩
            · show Function.update s.fork (lowF i) (s.fork (lowF i) - 1) (lowF i) = 0
              rw [Function.update_same]; omega
            · simp [holds, holdsPh, Function.update_same]
            · intro j hj
              rcases eq_or_ne j i with rfl | hne
              · rfl
              · exfalso
                simp only [holds] at hj
                rw [Function.update_noteq hne] at hj
                exact h2 j hj
          · omega
        · refine forkInv_transfer_at f ?_ (fun j => ?_) (hF f)
          · show Function.update s.fork (lowF i) _ f = s.fork f
            rw [Function.update_noteq hf]
          · unfold holds
            rcases eq_or_ne j i with rfl | hne
            · show holdsPh (Function.update s.phase j .awaitHigh j) _ _ _ ↔ _
              rw [Function.update_same, hph]
              simp [holdsPh, hf]
            · show holdsPh (Function.update s.phase i .awaitHigh j) _ _ _ ↔ _
              rw [Function.update_noteq hne]
      · show s.room = insideCountF (Function.update s.phase i .awaitHigh)
        have hcnt := insideCountF_update s.phase i .awaitHigh
        rw [hph] at hcnt
        simp only [inRoom, if_pos] at hcnt
        omega
  | awaitHigh =>
      simp only [enabled, hph, decide_eq_true_eq] at he
      simp only [applyStep, hph]
      refine ⟨fun f => ?_, ?_, hC⟩
      · rcases eq_or_ne f (highF i) with rfl | hf
        · rcases hF (highF i) with ⟨h1, h2⟩ | ⟨h1, _⟩
          · refine Or.inr ⟨?_, i, ?_, ?_⟩
            · show Function.update s.fork (highF i) (s.fork (highF i) - 1) (highF i) = 0
              rw [Function.update_same]; omega
            · simp [holds, holdsPh, Function.update_same]
            · intro j hj
              rcases eq_or_ne j i with rfl | hne
              · rfl
              · exfalso
                simp only [holds] at hj
                rw [Function.update_noteq hne] at hj
                exact h2 j hj
          · omega
        · refine forkInv_transfer_at f ?_ (fun j => ?_) (hF f)
          · show Function.update s.fork (highF i) _ f = s.fork f
            rw [Function.update_noteq hf]
          · unfold holds
            rcases eq_or_ne j i with rfl | hne
            · show holdsPh (Function.update s.phase j .eating j) _ _ _ ↔ _
              rw [Function.update_same, hph]
              simp [holdsPh, hf]
            · show holdsPh (Function.update s.phase i .eating j) _ _ _ ↔ _
              rw [Function.update_noteq hne]
      · show s.room = insideCountF (Function.update s.phase i .eating)
        have hcnt := insideCountF_update s.phase i .eating
        rw [hph] at hcnt
        simp only [inRoom, if_pos] at hcnt
        omega
  | eating =>
      simp only [applyStep, hph]
      have hkeep := holds_phase_update_iff (s := s) (i := i) Phase.putHigh
        (fun f => by rw [hph]; simp [holdsPh])
        { s with phase := Function.update s.phase i .putHigh
                 trace := s.trace ++ [.eat i.val] } rfl
      refine ⟨fun f => forkInv_transfer_at (s := s) f rfl (fun j => hkeep j f) (hF f), ?_, hC⟩
      show s.room = insideCountF (Function.update s.phase i .putHigh)
      have hcnt := insideCountF_update s.phase i .putHigh
      rw [hph] at hcnt
      simp only [inRoom, if_pos] at hcnt
      omega
  | putHigh =>
      simp only [enabled, hph, decide_eq_true_eq] at he
      simp only [applyStep, hph]
      have hne_lh := lowF_ne_highF hn i
      refine ⟨fun f => ?_, ?_, hC⟩
      · rcases eq_or_ne f (highF i) with rfl | hf
        · rcases hF (highF i) with ⟨h1, _⟩ | ⟨h1, k, hk, hu⟩
          · omega
          · have hik : i = k := hu i (by rw [holds, hph]; simp [holdsPh])
            refine Or.inl ⟨?_, fun j hj => ?_⟩
            · show Function.update s.fork (highF i) (s.fork (highF i) + 1) (highF i) = 1
              rw [Function.update_same]; omega
            · rcases eq_or_ne j i with rfl | hne
              · simp only [holds] at hj
                rw [Function.update_same] at hj
                rcases hj with ⟨hflo, _⟩ | ⟨_, hcon⟩
                · exact hne_lh hflo.symm
                · simp at hcon
              · simp only [holds] at hj
                rw [Function.update_noteq hne] at hj
                exact hne (hu j hj ▸ hik.symm ▸ rfl)
        · refine forkInv_transfer_at f ?_ (fun j => ?_) (hF f)
          · show Function.update s.fork (highF i) _ f = s.fork f
            rw [Function.update_noteq hf]
          · unfold holds
            rcases eq_or_ne j i with rfl | hne
            · show holdsPh (Function.update s.phase j .putLow j) _ _ _ ↔ _
              rw [Function.update_same, hph]
              simp [holdsPh, hf]
            · show holdsPh (Function.update s.phase i .putLow j) _ _ _ ↔ _
              rw [Function.update_noteq hne]
      · show s.room = insideCountF (Function.update s.phase i .putLow)
        have hcnt := insideCountF_update s.phase i .putLow
        rw [hph] at hcnt
        simp only [inRoom, if_pos] at hcnt
        omega
  | putLow =>
      simp only [enabled, hph, decide_eq_true_eq] at he
      simp only [applyStep, hph]
      refine ⟨fun f => ?_, ?_, hC⟩
      · rcases eq_or_ne f (lowF i) with rfl | hf
        · rcases hF (lowF i) with ⟨h1, _⟩ | ⟨h1, k, hk, hu⟩
          · omega
          · have hik : i = k := hu i (by rw [holds, hph]; simp [holdsPh])
            refine Or.inl ⟨?_, fun j hj => ?_⟩
            · show Function.update s.fork (lowF i) (s.fork (lowF i) + 1) (lowF i) = 1
              rw [Function.update_same]; omega
            · rcases eq_or_ne j i with rfl | hne
              · simp only [holds] at hj
                rw [Function.update_same] at hj
                simp [holdsPh] at hj
              · simp only [holds] at hj
                rw [Function.update_noteq hne] at hj
                exact hne (hu j hj ▸ hik.symm ▸ rfl)
        · refine forkInv_transfer_at f ?_ (fun j => ?_) (hF f)
          · show Function.update s.fork (lowF i) _ f = s.fork f
            rw [Function.update_noteq hf]
          · unfold holds
            rcases eq_or_ne j i with rfl | hne
            · show holdsPh (Function.update s.phase j .leaveRoom j) _ _ _ ↔ _
              rw [Function.update_same, hph]
              simp [holdsPh, hf]
            · show holdsPh (Function.update s.phase i .leaveRoom j) _ _ _ ↔ _
              rw [Function.update_noteq hne]
      · show s.room = insideCountF (Function.update s.phase i .leaveRoom)
        have hcnt := insideCountF_update s.phase i .leaveRoom
        rw [hph] at hcnt
        simp only [inRoom, if_pos] at hcnt
        omega
  | leaveRoom =>
      simp only [enabled, hph, decide_eq_true_eq] at he
      simp only [applyStep, hph]
      have hkeep := holds_phase_update_iff (s := s) (i := i) Phase.thinking
        (fun f => by rw [hph]; simp [holdsPh])
        { s with phase := Function.update s.phase i .thinking
                 room := s.room - 1
                 trace := s.trace ++ [.leave i.val] } rfl
      refine ⟨fun f => forkInv_transfer_at (s := s) f rfl (fun j => hkeep j f) (hF f), ?_, ?_⟩
      · show s.room - 1 = insideCountF (Function.update s.phase i .thinking)
        have hcnt := insideCountF_update s.phase i .thinking
        rw [hph] at hcnt
        simp only [inRoom, if_pos, if_neg, Bool.false_eq_true, not_false_iff] at hcnt
        omega
      · show s.room - 1 ≤ n - 1
        omega

/-- Every reachable state of a system of at least two philosophers
satisfies the global invariant. -/
theorem inv_reachable {n : Nat} (hn : 2 ≤ n) {s : SysState n}
    (h : Reachable n s) : Inv s := by
  induction h with
  | init => exact inv_init n
  | step _ he ih => exact inv_step hn ih he

/-- One full cycle of philosopher `i`'s observable events, in program
order: think, enter the room, acquire `low`, acquire `high`, eat,
release `high`, release `low`, leave the room. -/
def fullCycle {n : Nat} (i : Fin n) : List Ev :=
  [.think i.val, .enter i.val, .acq i.val (lowF i).val, .acq i.val (highF i).val,
   .eat i.val, .rel i.val (highF i).val, .rel i.val (lowF i).val, .leave i.val]

/-- The events philosopher `i` has emitted so far in its current
(incomplete) cycle, as a function of its program point. -/
def phasePrefix {n : Nat} (i : Fin n) : Phase → List Ev
  | .thinking => []
  | .awaitRoom => [.think i.val]
  | .awaitLow => [.think i.val, .enter i.val]
  | .awaitHigh => [.think i.val, .enter i.val, .acq i.val (lowF i).val]
  | .eating => [.think i.val, .enter i.val, .acq i.val (lowF i).val,
      .acq i.val (highF i).val]
  | .putHigh => [.think i.val, .enter i.val, .acq i.val (lowF i).val,
      .acq i.val (highF i).val, .eat i.val]
  | .putLow => [.think i.val, .enter i.val, .acq i.val (lowF i).val,
      .acq i.val (highF i).val, .eat i.val, .rel i.val (highF i).val]
  | .leaveRoom => [.think i.val, .enter i.val, .acq i.val (lowF i).val,
      .acq i.val (highF i).val, .eat i.val, .rel i.val (highF i).val,
      .rel i.val (lowF i).val]

/-- The subsequence of the global trace emitted by philosopher `i`. -/
def traceOf {n : Nat} (i : Fin n) (s : SysState n) : List Ev :=
  s.trace.filter (fun e => e.evId == i.val)

/-- `k` complete cycles of philosopher `i`'s events. -/
def cyclesTrace {n : Nat} (i : Fin n) (k : Nat) : List Ev :=
  (List.replicate k (fullCycle i)).flatten

theorem cyclesTrace_succ {n : Nat} (i : Fin n) (k : Nat) :
    cyclesTrace i (k + 1) = cyclesTrace i k ++ fullCycle i := by
  unfold cyclesTrace
  rw [List.replicate_succ', List.flatten_append]
  simp

/-- Per-philosopher trace invariant: the trace of each philosopher is a
number of complete cycles followed by the partial cycle determined by
its current program point. -/
def TraceInv {n : Nat} (s : SysState n) : Prop :=
  ∀ i : Fin n, ∃ k, traceOf i s = cyclesTrace i k ++ phasePrefix i (s.phase i)

theorem traceInv_init (n : Nat) : TraceInv (initSys n) := by
  intro i
  exact ⟨0, by simp [traceOf, initSys, cyclesTrace, phasePrefix]⟩

theorem filter_snoc_own {n : Nat} (i : Fin n) (l : List Ev) (e : Ev)
    (h : e.evId = i.val) :
    (l ++ [e]).filter (fun x => x.evId == i.val)
      = l.filter (fun x => x.evId == i.val) ++ [e] := by
  rw [List.filter_append]
  simp [h]

theorem filter_snoc_other {n : Nat} (i : Fin n) (l : List Ev) (e : Ev)
    (h : e.evId ≠ i.val) :
    (l ++ [e]).filter (fun x => x.evId == i.val)
      = l.filter (fun x => x.evId == i.val) := by
  rw [List.filter_append]
  simp [h]

/-- One step of any philosopher preserves the trace invariant. -/
theorem traceInv_step {n : Nat} {s : SysState n} {j : Fin n}
    (hT : TraceInv s) : TraceInv (applyStep s j) := by
  intro i
  cases hph : s.phase j with
  | thinking =>
      simp only [applyStep, hph]
      rcases eq_or_ne i j with rfl | hne
      · obtain ⟨k, hk⟩ := hT i
        rw [hph] at hk
        refine ⟨k, ?_⟩
        show (s.trace ++ [Ev.think i.val]).filter _
          = cyclesTrace i k ++ phasePrefix i (Function.update s.phase i .awaitRoom i)
        rw [filter_snoc_own i s.trace (Ev.think i.val) rfl, Function.update_same]
        unfold traceOf at hk
        rw [hk]
        simp [phasePrefix]
      · obtain ⟨k, hk⟩ := hT i
        refine ⟨k, ?_⟩
        show (s.trace ++ [Ev.think j.val]).filter _
          = cyclesTrace i k ++ phasePrefix i (Function.update s.phase j .awaitRoom i)
        rw [filter_snoc_other i s.trace _ (by simp [Ev.evId]; exact Fin.val_ne_of_ne (Ne.symm hne)),
            Function.update_noteq hne]
        exact hk
  | awaitRoom =>
      simp only [applyStep, hph]
      rcases eq_or_ne i j with rfl | hne
      · obtain ⟨k, hk⟩ := hT i
        rw [hph] at hk
        refine ⟨k, ?_⟩
        show (s.trace ++ [Ev.enter i.val]).filter _
          = cyclesTrace i k ++ phasePrefix i (Function.update s.phase i .awaitLow i)
        rw [filter_snoc_own i s.trace (Ev.enter i.val) rfl, Function.update_same]
        unfold traceOf at hk
        rw [hk]
        simp [phasePrefix]
      · obtain ⟨k, hk⟩ := hT i
        refine ⟨k, ?_⟩
        show (s.trace ++ [Ev.enter j.val]).filter _
          = cyclesTrace i k ++ phasePrefix i (Function.update s.phase j .awaitLow i)
        rw [filter_snoc_other i s.trace _ (by simp [Ev.evId]; exact Fin.val_ne_of_ne (Ne.symm hne)),
            Function.update_noteq hne]
        exact hk
  | awaitLow =>
      simp only [applyStep, hph]
      rcases eq_or_ne i j with rfl | hne
      · obtain ⟨k, hk⟩ := hT i
        rw [hph] at hk
        refine ⟨k, ?_⟩
        show (s.trace ++ [Ev.acq i.val (lowF i).val]).filter _
          = cyclesTrace i k ++ phasePrefix i (Function.update s.phase i .awaitHigh i)
        rw [filter_snoc_own i s.trace (Ev.acq i.val (lowF i).val) rfl, Function.update_same]
        unfold traceOf at hk
        rw [hk]
        simp [phasePrefix]
      · obtain ⟨k, hk⟩ := hT i
        refine ⟨k, ?_⟩
        show (s.trace ++ [Ev.acq j.val (lowF j).val]).filter _
          = cyclesTrace i k ++ phasePrefix i (Function.update s.phase j .awaitHigh i)
        rw [filter_snoc_other i s.trace _ (by simp [Ev.evId]; exact Fin.val_ne_of_ne (Ne.symm hne)),
            Function.update_noteq hne]
        exact hk
  | awaitHigh =>
      simp only [applyStep, hph]
      rcases eq_or_ne i j with rfl | hne
      · obtain ⟨k, hk⟩ := hT i
        rw [hph] at hk
        refine ⟨k, ?_⟩
        show (s.trace ++ [Ev.acq i.val (highF i).val]).filter _
          = cyclesTrace i k ++ phasePrefix i (Function.update s.phase i .eating i)
        rw [filter_snoc_own i s.trace (Ev.acq i.val (highF i).val) rfl, Function.update_same]
        unfold traceOf at hk
        rw [hk]
        simp [phasePrefix]
      · obtain ⟨k, hk⟩ := hT i
        refine ⟨k, ?_⟩
        show (s.trace ++ [Ev.acq j.val (highF j).val]).filter _
          = cyclesTrace i k ++ phasePrefix i (Function.update s.phase j .eating i)
        rw [filter_snoc_other i s.trace _ (by simp [Ev.evId]; exact Fin.val_ne_of_ne (Ne.symm hne)),
            Function.update_noteq hne]
        exact hk
  | eating =>
      simp only [applyStep, hph]
      rcases eq_or_ne i j with rfl | hne
      · obtain ⟨k, hk⟩ := hT i
        rw [hph] at hk
        refine ⟨k, ?_⟩
        show (s.trace ++ [Ev.eat i.val]).filter _
          = cyclesTrace i k ++ phasePrefix i (Function.update s.phase i .putHigh i)
        rw [filter_snoc_own i s.trace (Ev.eat i.val) rfl, Function.update_same]
        unfold traceOf at hk
        rw [hk]
        simp [phasePrefix]
      · obtain ⟨k, hk⟩ := hT i
        refine ⟨k, ?_⟩
        show (s.trace ++ [Ev.eat j.val]).filter _
          = cyclesTrace i k ++ phasePrefix i (Function.update s.phase j .putHigh i)
        rw [filter_snoc_other i s.trace _ (by simp [Ev.evId]; exact Fin.val_ne_of_ne (Ne.symm hne)),
            Function.update_noteq hne]
        exact hk
  | putHigh =>
      simp only [applyStep, hph]
      rcases eq_or_ne i j with rfl | hne
      · obtain ⟨k, hk⟩ := hT i
        rw [hph] at hk
        refine ⟨k, ?_⟩
        show (s.trace ++ [Ev.rel i.val (highF i).val]).filter _
          = cyclesTrace i k ++ phasePrefix i (Function.update s.phase i .putLow i)
        rw [filter_snoc_own i s.trace (Ev.rel i.val (highF i).val) rfl, Function.update_same]
        unfold traceOf at hk
        rw [hk]
        simp [phasePrefix]
      · obtain ⟨k, hk⟩ := hT i
        refine ⟨k, ?_⟩
        show (s.trace ++ [Ev.rel j.val (highF j).val]).filter _
          = cyclesTrace i k ++ phasePrefix i (Function.update s.phase j .putLow i)
        rw [filter_snoc_other i s.trace _ (by simp [Ev.evId]; exact Fin.val_ne_of_ne (Ne.symm hne)),
            Function.update_noteq hne]
        exact hk
  | putLow =>
      simp only [applyStep, hph]
      rcases eq_or_ne i j with rfl | hne
      · obtain ⟨k, hk⟩ := hT i
        rw [hph] at hk
        refine ⟨k, ?_⟩
        show (s.trace ++ [Ev.rel i.val (lowF i).val]).filter _
          = cyclesTrace i k ++ phasePrefix i (Function.update s.phase i .leaveRoom i)
        rw [filter_snoc_own i s.trace (Ev.rel i.val (lowF i).val) rfl, Function.update_same]
        unfold traceOf at hk
        rw [hk]
        simp [phasePrefix]
      · obtain ⟨k, hk⟩ := hT i
        refine ⟨k, ?_⟩
        show (s.trace ++ [Ev.rel j.val (lowF j).val]).filter _
          = cyclesTrace i k ++ phasePrefix i (Function.update s.phase j .leaveRoom i)
        rw [filter_snoc_other i s.trace _ (by simp [Ev.evId]; exact Fin.val_ne_of_ne (Ne.symm hne)),
            Function.update_noteq hne]
        exact hk
  | leaveRoom =>
      simp only [applyStep, hph]
      rcases eq_or_ne i j with rfl | hne
      · obtain ⟨k, hk⟩ := hT i
        rw [hph] at hk
        refine ⟨k + 1, ?_⟩
        show (s.trace ++ [Ev.leave i.val]).filter _
          = cyclesTrace i (k + 1) ++ phasePrefix i (Function.update s.phase i .thinking i)
        rw [filter_snoc_own i s.trace (Ev.leave i.val) rfl, Function.update_same, cyclesTrace_succ]
        unfold traceOf at hk
        rw [hk]
        simp [phasePrefix, fullCycle]
      · obtain ⟨k, hk⟩ := hT i
        refine ⟨k, ?_⟩
        show (s.trace ++ [Ev.leave j.val]).filter _
          = cyclesTrace i k ++ phasePrefix i (Function.update s.phase j .thinking i)
        rw [filter_snoc_other i s.trace _ (by simp [Ev.evId]; exact Fin.val_ne_of_ne (Ne.symm hne)),
            Function.update_noteq hne]
        exact hk

/-- Every reachable state satisfies the trace invariant. -/
theorem traceInv_reachable {n : Nat} {s : SysState n}
    (h : Reachable n s) : TraceInv s := by
  induction h with
  | init => exact traceInv_init n
  | step _ _ ih => exact traceInv_step ih

/-- Progress: in every reachable state of a system of at least two
philosophers, at least one philosopher's next operation is enabled; the
system can never be globally blocked.  The two ingredients of the proof
are exactly the design's: the room admits at most `n - 1` philosophers,
and whoever holds the empty fork a waiting philosopher needs is itself
waiting on a strictly higher-numbered fork, so a philosopher with the
maximal first fork cannot be blocked by a fork holder. -/
theorem progress {n : Nat} (hn : 2 ≤ n) {s : SysState n}
    (hs : Reachable n s) : ∃ i : Fin n, enabled s i = true := by
  by_contra hno
  push_neg at hno
  obtain ⟨hF, hR, hC⟩ := inv_reachable hn hs
  unfold insideCount at hR
  have hcases : ∀ i : Fin n, s.phase i = .awaitRoom ∨ s.phase i = .awaitLow ∨
      s.phase i = .awaitHigh := by
    intro i
    have hni := hno i
    cases hph : s.phase i with
    | thinking => simp [enabled, hph] at hni
    | eating => simp [enabled, hph] at hni
    | awaitRoom => exact Or.inl rfl
    | awaitLow => exact Or.inr (Or.inl rfl)
    | awaitHigh => exact Or.inr (Or.inr rfl)
    | putHigh =>
        exfalso
        simp only [enabled, hph, ne_eq, decide_eq_true_eq] at hni
        have hhold : holds s i (highF i) := by
          rw [holds, hph]; simp [holdsPh]
        rcases hF (highF i) with ⟨_, h2⟩ | ⟨h1, _⟩
        · exact h2 i hhold
        · omega
    | putLow =>
        exfalso
        simp only [enabled, hph, ne_eq, decide_eq_true_eq] at hni
        have hhold : holds s i (lowF i) := by
          rw [holds, hph]; simp [holdsPh]
        rcases hF (lowF i) with ⟨_, h2⟩ | ⟨h1, _⟩
        · exact h2 i hhold
        · omega
    | leaveRoom =>
        exfalso
        simp only [enabled, hph, ne_eq, decide_eq_true_eq] at hni
        have hone : (if inRoom (s.phase i) then 1 else 0) ≤ insideCountF s.phase :=
          Finset.single_le_sum
            (f := fun j => if inRoom (s.phase j) then 1 else 0)
            (fun j _ => Nat.zero_le _) (Finset.mem_univ i)
        rw [hph] at hone
        simp only [inRoom, if_pos] at hone
        omega
  by_cases hA : ∃ p, s.phase p = Phase.awaitHigh
  · obtain ⟨p0, hp0⟩ := hA
    have hAne : (Finset.univ.filter
        (fun q : Fin n => s.phase q = Phase.awaitHigh)).Nonempty :=
      ⟨p0, by simp [hp0]⟩
    obtain ⟨p, hpA, hmax⟩ := Finset.exists_max_image
      (Finset.univ.filter (fun q : Fin n => s.phase q = Phase.awaitHigh))
      (fun q => (lowF q : Nat)) hAne
    have hphp : s.phase p = Phase.awaitHigh := by
      simpa using hpA
    have hnp := hno p
    simp only [enabled, hphp, ne_eq, decide_eq_true_eq] at hnp
    have hzero : s.fork (highF p) = 0 := by omega
    rcases hF (highF p) with ⟨h1, _⟩ | ⟨_, q, hq, _⟩
    · omega
    · have hqAH : s.phase q = Phase.awaitHigh ∧ highF p = lowF q := by
        rcases hcases q with hq1 | hq1 | hq1 <;>
          rw [holds, hq1] at hq <;> simp [holdsPh] at hq
        · exact ⟨hq1, hq⟩
      obtain ⟨hq1, hq2⟩ := hqAH
      have hqmem : q ∈ Finset.univ.filter
          (fun r : Fin n => s.phase r = Phase.awaitHigh) := by simp [hq1]
      have hle : (lowF q : Nat) ≤ (lowF p : Nat) := hmax q hqmem
      have hlt : (lowF p : Nat) < (highF p : Nat) :=
        lowOf_lt_highOf p.val n hn p.isLt
      have hvq : (highF p : Nat) = (lowF q : Nat) := congrArg Fin.val hq2
      omega
  · push_neg at hA
    by_cases hL : ∃ p, s.phase p = Phase.awaitLow
    · obtain ⟨p, hp⟩ := hL
      have hnp := hno p
      simp only [enabled, hp, ne_eq, decide_eq_true_eq] at hnp
      have hzero : s.fork (lowF p) = 0 := by omega
      rcases hF (lowF p) with ⟨h1, _⟩ | ⟨_, q, hq, _⟩
      · omega
      · rcases hcases q with hq1 | hq1 | hq1
        · rw [holds, hq1] at hq; simp [holdsPh] at hq
        · rw [holds, hq1] at hq; simp [holdsPh] at hq
        · exact hA q hq1
    · push_neg at hL
      have hall : ∀ i, s.phase i = Phase.awaitRoom := by
        intro i
        rcases hcases i with h | h | h
        · exact h
        · exact absurd h (hL i)
        · exact absurd h (hA i)
      have hcnt : insideCountF s.phase = 0 := by
        unfold insideCountF
        refine Finset.sum_eq_zero fun j _ => ?_
        rw [hall j]
        simp [inRoom]
      have hi0 : (0 : Nat) < n := by omega
      have hnp := hno ⟨0, hi0⟩
      simp only [enabled, hall ⟨0, hi0⟩, ne_eq, decide_eq_true_eq] at hnp
      unfold roomCapacity at hnp
      omega

/-- One scheduling attempt: philosopher `i` executes its next operation
if it is enabled, otherwise the attempt is skipped (the goroutine stays
blocked on its channel operation). -/
def tryStep {n : Nat} (s : SysState n) (i : Fin n) : SysState n :=
  if enabled s i then applyStep s i else s

/-- Run a list of scheduling attempts from a state. -/
def runSched {n : Nat} (l : List (Fin n)) (s : SysState n) : SysState n :=
  l.foldl tryStep s

/-- A fair round-robin schedule for the reference configuration `n = 5`:
philosophers `0,1,2,3,4` are attempted in turn, `rounds` times over. -/
def rrSched (rounds : Nat) : List (Fin 5) :=
  (List.range (rounds * 5)).map (fun t => ⟨t % 5, Nat.mod_lt t (by decide)⟩)

/-- The sequence of fork indices a trace acquires, in order. -/
def acqForks (l : List Ev) : List Nat :=
  l.filterMap fun e => match e with | .acq _ f => some f | _ => none

/-- The subsequence of printed observations (thinking/eating events). -/
def obsEvents (l : List Ev) : List Ev :=
  l.filter fun e => match e with | .think _ => true | .eat _ => true | _ => false

/-- The subsequence of cycle-boundary and release events: think marks
the start of a cycle, then the two fork releases and the room leave. -/
def relSeq (l : List Ev) : List Ev :=
  l.filter fun e => match e with
    | .think _ => true | .rel _ _ => true | .leave _ => true | _ => false

theorem acqForks_append (a b : List Ev) :
    acqForks (a ++ b) = acqForks a ++ acqForks b :=
  List.filterMap_append a b _

theorem obsEvents_append (a b : List Ev) :
    obsEvents (a ++ b) = obsEvents a ++ obsEvents b :=
  List.filter_append a b

theorem relSeq_append (a b : List Ev) :
    relSeq (a ++ b) = relSeq a ++ relSeq b :=
  List.filter_append a b

theorem acqForks_cyclesTrace {n : Nat} (i : Fin n) (k : Nat) :
    acqForks (cyclesTrace i k)
      = (List.replicate k [(lowF i).val, (highF i).val]).flatten := by
  induction k with
  | zero => rfl
  | succ k ih =>
      rw [cyclesTrace_succ, acqForks_append, ih, List.replicate_succ',
        List.flatten_append]
      simp [acqForks, fullCycle]

theorem obsEvents_cyclesTrace {n : Nat} (i : Fin n) (k : Nat) :
    obsEvents (cyclesTrace i k)
      = (List.replicate k [Ev.think i.val, Ev.eat i.val]).flatten := by
  induction k with
  | zero => rfl
  | succ k ih =>
      rw [cyclesTrace_succ, obsEvents_append, ih, List.replicate_succ',
        List.flatten_append]
      simp [obsEvents, fullCycle]

theorem relSeq_cyclesTrace {n : Nat} (i : Fin n) (k : Nat) :
    relSeq (cyclesTrace i k)
      = (List.replicate k [Ev.think i.val, Ev.rel i.val (highF i).val,
          Ev.rel i.val (lowF i).val, Ev.leave i.val]).flatten := by
  induction k with
  | zero => rfl
  | succ k ih =>
      rw [cyclesTrace_succ, relSeq_append, ih, List.replicate_succ',
        List.flatten_append]
      simp [relSeq, fullCycle]

theorem acqForks_phasePrefix {n : Nat} (i : Fin n) (ph : Phase) :
    List.IsPrefix (acqForks (phasePrefix i ph)) [(lowF i).val, (highF i).val] := by
  cases ph
  · exact ⟨[(lowF i).val, (highF i).val], rfl⟩
  · exact ⟨[(lowF i).val, (highF i).val], rfl⟩
  · exact ⟨[(lowF i).val, (highF i).val], rfl⟩
  · exact ⟨[(highF i).val], rfl⟩
  · exact ⟨[], rfl⟩
  · exact ⟨[], rfl⟩
  · exact ⟨[], rfl⟩
  · exact ⟨[], rfl⟩

theorem obsEvents_phasePrefix {n : Nat} (i : Fin n) (ph : Phase) :
    List.IsPrefix (obsEvents (phasePrefix i ph)) [Ev.think i.val, Ev.eat i.val] := by
  cases ph
  · exact ⟨[Ev.think i.val, Ev.eat i.val], rfl⟩
  · exact ⟨[Ev.eat i.val], rfl⟩
  · exact ⟨[Ev.eat i.val], rfl⟩
  · exact ⟨[Ev.eat i.val], rfl⟩
  · exact ⟨[Ev.eat i.val], rfl⟩
  · exact ⟨[], rfl⟩
  · exact ⟨[], rfl⟩
  · exact ⟨[], rfl⟩

theorem relSeq_phasePrefix {n : Nat} (i : Fin n) (ph : Phase) :
    List.IsPrefix (relSeq (phasePrefix i ph))
      [Ev.think i.val, Ev.rel i.val (highF i).val,
        Ev.rel i.val (lowF i).val, Ev.leave i.val] := by
  cases ph
  · exact ⟨[Ev.think i.val, Ev.rel i.val (highF i).val,
      Ev.rel i.val (lowF i).val, Ev.leave i.val], rfl⟩
  · exact ⟨[Ev.rel i.val (highF i).val, Ev.rel i.val (lowF i).val,
      Ev.leave i.val], rfl⟩
  · exact ⟨[Ev.rel i.val (highF i).val, Ev.rel i.val (lowF i).val,
      Ev.leave i.val], rfl⟩
  · exact ⟨[Ev.rel i.val (highF i).val, Ev.rel i.val (lowF i).val,
      Ev.leave i.val], rfl⟩
  · exact ⟨[Ev.rel i.val (highF i).val, Ev.rel i.val (lowF i).val,
      Ev.leave i.val], rfl⟩
  · exact ⟨[Ev.rel i.val (highF i).val, Ev.rel i.val (lowF i).val,
      Ev.leave i.val], rfl⟩
  · exact ⟨[Ev.rel i.val (lowF i).val, Ev.leave i.val], rfl⟩
  · exact ⟨[Ev.leave i.val], rfl⟩

/-- The state after philosopher 0 runs five steps alone from startup:
think, enter the room, pick up fork 0, pick up fork 1, finish eating;
philosopher 0 is about to put fork 1 back. -/
def demoPutHigh : SysState 5 :=
  applyStep (applyStep (applyStep (applyStep (applyStep (initSys 5) 0) 0) 0) 0) 0

theorem demoPutHigh_reachable : Reachable 5 demoPutHigh :=
  .step (.step (.step (.step (.step .init (by decide)) (by decide))
    (by decide)) (by decide)) (by decide)

set_option maxRecDepth 8000 in
/-- C1: in every reachable state of the system of `n ≥ 2` philosophers
behind the capacity-`(n-1)` room, some philosopher's next operation is
enabled (all `n` actors are never simultaneously blocked), and under the
fair round-robin scheduler the reference system of 5 philosophers
completes at least one full think→eat→release cycle per philosopher
within 30 rounds (150 scheduling attempts). -/
theorem claim_no_deadlock {n : Nat} (hn : 2 ≤ n) :
    (∀ s : SysState n, Reachable n s → ∃ i : Fin n, enabled s i = true) ∧
    (∀ i : Fin 5,
      1 ≤ (runSched (rrSched 30) (initSys 5)).trace.count (Ev.leave i.val)) :=
  ⟨fun _ hs => progress hn hs, by decide⟩

theorem claim_no_deadlock_witness :
    (∀ s : SysState 5, Reachable 5 s → ∃ i : Fin 5, enabled s i = true) ∧
    (∀ i : Fin 5,
      1 ≤ (runSched (rrSched 30) (initSys 5)).trace.count (Ev.leave i.val)) :=
  claim_no_deadlock (by decide)

/-- C2: in every reachable state, every philosopher's sequence of fork
acquisitions is cycles of `min(left,right)` followed by
`max(left,right)` (with `left = id`, `right = (id+1) mod n`), possibly
truncated mid-cycle: the lower-indexed fork is always acquired strictly
before the higher-indexed one, and the `low`/`high` computation equals
`min`/`max` of the two neighbour indices. -/
theorem claim_ordering_invariant {n : Nat} {s : SysState n}
    (hs : Reachable n s) (i : Fin n) :
    lowOf i.val n = min i.val ((i.val + 1) % n) ∧
    highOf i.val n = max i.val ((i.val + 1) % n) ∧
    ∃ k p, acqForks (traceOf i s)
        = (List.replicate k [min i.val ((i.val + 1) % n),
            max i.val ((i.val + 1) % n)]).flatten ++ p
      ∧ List.IsPrefix p [min i.val ((i.val + 1) % n),
          max i.val ((i.val + 1) % n)] := by
  have hmin : lowOf i.val n = min i.val ((i.val + 1) % n) := lowOf_eq_min i.val n
  have hmax : highOf i.val n = max i.val ((i.val + 1) % n) := highOf_eq_max i.val n
  have hl : (lowF i).val = min i.val ((i.val + 1) % n) := hmin
  have hh : (highF i).val = max i.val ((i.val + 1) % n) := hmax
  refine ⟨hmin, hmax, ?_⟩
  obtain ⟨k, hk⟩ := traceInv_reachable hs i
  refine ⟨k, acqForks (phasePrefix i (s.phase i)), ?_, ?_⟩
  · rw [hk, acqForks_append, acqForks_cyclesTrace, hl, hh]
  · have hpre := acqForks_phasePrefix i (s.phase i)
    rwa [hl, hh] at hpre

theorem claim_ordering_invariant_witness :
    lowOf (0 : Fin 5).val 5 = min (0 : Fin 5).val (((0 : Fin 5).val + 1) % 5) ∧
    highOf (0 : Fin 5).val 5 = max (0 : Fin 5).val (((0 : Fin 5).val + 1) % 5) ∧
    ∃ k p, acqForks (traceOf (0 : Fin 5) demoPutHigh)
        = (List.replicate k [min (0 : Fin 5).val (((0 : Fin 5).val + 1) % 5),
            max (0 : Fin 5).val (((0 : Fin 5).val + 1) % 5)]).flatten ++ p
      ∧ List.IsPrefix p [min (0 : Fin 5).val (((0 : Fin 5).val + 1) % 5),
          max (0 : Fin 5).val (((0 : Fin 5).val + 1) % 5)] :=
  claim_ordering_invariant demoPutHigh_reachable 0

/-- C3: in every reachable state, the number of philosophers past the
completed `room <-` send (entered) and before the completed `<-room`
receive (left) is at most `n - 1`, and equals the room channel's token
count: the room is a counting permit pool of capacity `n - 1`. -/
theorem claim_admission_bound {n : Nat} (hn : 2 ≤ n) {s : SysState n}
    (hs : Reachable n s) :
    insideCount s ≤ n - 1 ∧ s.room = insideCount s := by
  obtain ⟨_, hR, hC⟩ := inv_reachable hn hs
  constructor <;> omega

theorem claim_admission_bound_witness :
    insideCount demoPutHigh ≤ 5 - 1 ∧ demoPutHigh.room = insideCount demoPutHigh :=
  claim_admission_bound (by decide) demoPutHigh_reachable

/-- C4: every fork channel starts with exactly one availability token,
and in every reachable state, for every fork, the set of philosophers
holding that fork has cardinality at most 1 (mutual exclusion, in every
interleaving). -/
theorem claim_mutual_exclusion {n : Nat} (hn : 2 ≤ n) :
    (∀ f : Fin n, (initSys n).fork f = 1) ∧
    ∀ s : SysState n, Reachable n s → ∀ f : Fin n,
      (Finset.univ.filter (fun i : Fin n => holds s i f)).card ≤ 1 := by
  refine ⟨fun _ => rfl, fun s hs f => ?_⟩
  obtain ⟨hF, _, _⟩ := inv_reachable hn hs
  refine Finset.card_le_one.mpr fun a ha b hb => ?_
  simp only [Finset.mem_filter] at ha hb
  rcases hF f with ⟨_, h2⟩ | ⟨_, q, _, hu⟩
  · exact absurd ha.2 (h2 a)
  · rw [hu a ha.2, hu b hb.2]

theorem claim_mutual_exclusion_witness :
    (∀ f : Fin 5, (initSys 5).fork f = 1) ∧
    ∀ s : SysState 5, Reachable 5 s → ∀ f : Fin 5,
      (Finset.univ.filter (fun i : Fin 5 => holds s i f)).card ≤ 1 :=
  claim_mutual_exclusion (by decide)

/-- C5: for `n = 5`, philosopher 4's neighbours are `left = 4` and
`right = 0`, so `low = 0` and `high = 4`; philosopher 4 is the only one
of the five whose acquisition pair `(low, high)` differs from its local
`(left, right)` labelling. -/
theorem claim_actor4_reversal :
    leftFork 4 5 = 4 ∧ rightFork 4 5 = 0 ∧ lowOf 4 5 = 0 ∧ highOf 4 5 = 4 ∧
    (∀ id : Fin 5, ((lowOf id.val 5, highOf id.val 5)
        ≠ (leftFork id.val 5, rightFork id.val 5) ↔ id.val = 4)) := by
  decide

/-- C6: in every reachable state, every philosopher's subsequence of
cycle-start and release events is cycles of: think (cycle start), then
release `high`, then release `low`, then leave the room — in exactly
that order, possibly truncated mid-cycle. -/
theorem claim_releasing_sequence {n : Nat} {s : SysState n}
    (hs : Reachable n s) (i : Fin n) :
    ∃ k p, relSeq (traceOf i s)
        = (List.replicate k [Ev.think i.val, Ev.rel i.val (highF i).val,
            Ev.rel i.val (lowF i).val, Ev.leave i.val]).flatten ++ p
      ∧ List.IsPrefix p [Ev.think i.val, Ev.rel i.val (highF i).val,
          Ev.rel i.val (lowF i).val, Ev.leave i.val] := by
  obtain ⟨k, hk⟩ := traceInv_reachable hs i
  exact ⟨k, relSeq (phasePrefix i (s.phase i)),
    by rw [hk, relSeq_append, relSeq_cyclesTrace],
    relSeq_phasePrefix i (s.phase i)⟩

theorem claim_releasing_sequence_witness :
    ∃ k p, relSeq (traceOf (0 : Fin 5) demoPutHigh)
        = (List.replicate k [Ev.think (0 : Fin 5).val,
            Ev.rel (0 : Fin 5).val (highF (0 : Fin 5)).val,
            Ev.rel (0 : Fin 5).val (lowF (0 : Fin 5)).val,
            Ev.leave (0 : Fin 5).val]).flatten ++ p
      ∧ List.IsPrefix p [Ev.think (0 : Fin 5).val,
          Ev.rel (0 : Fin 5).val (highF (0 : Fin 5)).val,
          Ev.rel (0 : Fin 5).val (lowF (0 : Fin 5)).val,
          Ev.leave (0 : Fin 5).val] :=
  claim_releasing_sequence demoPutHigh_reachable 0

/-- C7: in every reachable state, every philosopher's subsequence of
printed observations is cycles of a thinking event followed by an
eating event, both tagged with the philosopher's id, possibly truncated
after a thinking event: per cycle exactly one thinking then one eating
observation, strictly alternating. -/
theorem claim_obs_alternation {n : Nat} {s : SysState n}
    (hs : Reachable n s) (i : Fin n) :
    ∃ k p, obsEvents (traceOf i s)
        = (List.replicate k [Ev.think i.val, Ev.eat i.val]).flatten ++ p
      ∧ List.IsPrefix p [Ev.think i.val, Ev.eat i.val] := by
  obtain ⟨k, hk⟩ := traceInv_reachable hs i
  exact ⟨k, obsEvents (phasePrefix i (s.phase i)),
    by rw [hk, obsEvents_append, obsEvents_cyclesTrace],
    obsEvents_phasePrefix i (s.phase i)⟩

theorem claim_obs_alternation_witness :
    ∃ k p, obsEvents (traceOf (0 : Fin 5) demoPutHigh)
        = (List.replicate k [Ev.think (0 : Fin 5).val,
            Ev.eat (0 : Fin 5).val]).flatten ++ p
      ∧ List.IsPrefix p [Ev.think (0 : Fin 5).val, Ev.eat (0 : Fin 5).val] :=
  claim_obs_alternation demoPutHigh_reachable 0

/-- C8: the reference configuration sets the actor/resource count to
`n = 5`; the room capacity is derived from it as `n - 1`; every fork
channel starts with one token and the room channel starts empty. -/
theorem claim_startup_config :
    mainN = 5 ∧ roomCapacity mainN = mainN - 1 ∧
    (∀ i : Fin mainN, (initSys mainN).fork i = 1) ∧
    (initSys mainN).room = 0 :=
  ⟨rfl, rfl, fun _ => rfl, rfl⟩

/-- C9: in every reachable state, a philosopher about to put a fork
back finds that fork's capacity-1 channel empty (it holds the only
token), so the release send is enabled and never blocks. -/
theorem claim_release_never_blocks {n : Nat} (hn : 2 ≤ n) {s : SysState n}
    (hs : Reachable n s) (i : Fin n) :
    (s.phase i = .putHigh → s.fork (highF i) = 0 ∧ enabled s i = true) ∧
    (s.phase i = .putLow → s.fork (lowF i) = 0 ∧ enabled s i = true) := by
  obtain ⟨hF, _, _⟩ := inv_reachable hn hs
  constructor
  · intro hph
    have hhold : holds s i (highF i) := by rw [holds, hph]; simp [holdsPh]
    rcases hF (highF i) with ⟨_, h2⟩ | ⟨h1, _⟩
    · exact absurd hhold (h2 i)
    · exact ⟨h1, by simp [enabled, hph, h1]⟩
  · intro hph
    have hhold : holds s i (lowF i) := by rw [holds, hph]; simp [holdsPh]
    rcases hF (lowF i) with ⟨_, h2⟩ | ⟨h1, _⟩
    · exact absurd hhold (h2 i)
    · exact ⟨h1, by simp [enabled, hph, h1]⟩

theorem claim_release_never_blocks_witness :
    (demoPutHigh.phase (0 : Fin 5) = .putHigh →
      demoPutHigh.fork (highF (0 : Fin 5)) = 0
        ∧ enabled demoPutHigh (0 : Fin 5) = true) ∧
    (demoPutHigh.phase (0 : Fin 5) = .putLow →
      demoPutHigh.fork (lowF (0 : Fin 5)) = 0
        ∧ enabled demoPutHigh (0 : Fin 5) = true) :=
  claim_release_never_blocks (by decide) demoPutHigh_reachable 0

/-- C10: in every reachable state, every philosopher that holds at
least one fork is inside the room (it entered before its first acquire
and leaves only after its last release), so at most `n - 1` philosophers
hold any fork simultaneously. -/
theorem claim_holders_admitted {n : Nat} (hn : 2 ≤ n) {s : SysState n}
    (hs : Reachable n s) :
    (∀ i : Fin n, (∃ f, holds s i f) → inRoom (s.phase i) = true) ∧
    (Finset.univ.filter (fun i : Fin n => ∃ f, holds s i f)).card ≤ n - 1 := by
  obtain ⟨_, hR, hC⟩ := inv_reachable hn hs
  have hmem : ∀ i : Fin n, (∃ f, holds s i f) → inRoom (s.phase i) = true := by
    intro i hf
    obtain ⟨f, hf⟩ := hf
    rcases hf with ⟨_, h | h | h | h⟩ | ⟨_, h | h⟩ <;> rw [h] <;> rfl
  refine ⟨hmem, ?_⟩
  have hsub : Finset.univ.filter (fun i : Fin n => ∃ f, holds s i f)
      ⊆ Finset.univ.filter (fun i : Fin n => inRoom (s.phase i) = true) := by
    intro a ha
    simp only [Finset.mem_filter] at ha ⊢
    exact ⟨ha.1, hmem a ha.2⟩
  have hcard : (Finset.univ.filter
      (fun i : Fin n => inRoom (s.phase i) = true)).card = insideCount s := by
    rw [Finset.card_filter]
    rfl
  have hle := Finset.card_le_card hsub
  rw [hcard] at hle
  omega

theorem claim_holders_admitted_witness :
    (∀ i : Fin 5, (∃ f, holds demoPutHigh i f)
      → inRoom (demoPutHigh.phase i) = true) ∧
    (Finset.univ.filter
      (fun i : Fin 5 => ∃ f, holds demoPutHigh i f)).card ≤ 5 - 1 :=
  claim_holders_admitted (by decide) demoPutHigh_reachable

end DinPhil
